import Mathlib

/-!
Verification of the truth-table generator (src/main.py).

The Python program tokenises a propositional formula, parses it by recursive
descent, normalises the AST by flattening nested Or/And chains, enumerates
deduplicated subexpressions, and builds a truth table over all variable
assignments.  This file is a shallow embedding of that program: each Python
function is translated to a Lean definition of the same name, and the claims
about the program are settled as theorems over those definitions.

Modelling conventions:
* Python class Expr(head, value=None, children=[]) becomes the nested
  inductive Expr below; the value field defaults to the empty string where
  Python uses None (None never influences any claim: it only occurs in
  hand-built Symbol nodes, which the program itself never constructs).
* Python exceptions become Option / Except results.
* The tokeniser buffers tokens in reverse and pops from the tail; we produce
  the in-order token list and consume it from the front, which is the same
  front-to-back consumption order.
* The recursive-descent parser is given explicit fuel (8 * (tokens + 1),
  far above the maximal call depth, which consumes at most eight frames per
  token); the fuel makes every definition structurally recursive so that the
  kernel can evaluate concrete inputs.
-/

/-- The Head enum of the Python program (tag of the Expr sum type). -/
inductive Head where
  | SYMBOL | NOT | OR | AND | IMPLIES | EQUIV | PAREN
  deriving DecidableEq, Repr

/-- The Expr dataclass: head tag, value (Symbol name), list of children. -/
inductive Expr where
  | mk (head : Head) (value : String) (children : List Expr)

def Expr.head : Expr → Head
  | .mk h _ _ => h

def Expr.value : Expr → String
  | .mk _ v _ => v

def Expr.children : Expr → List Expr
  | .mk _ _ cs => cs

/-- Induction on Expr with hypotheses for all members of the child list. -/
theorem Expr.inductionOn (P : Expr → Prop)
    (step : ∀ h v cs, (∀ c ∈ cs, P c) → P (Expr.mk h v cs)) : ∀ e, P e
  | .mk h v cs => step h v cs (fun c hc => Expr.inductionOn P step c)
termination_by e => sizeOf e
decreasing_by
  have := List.sizeOf_lt_of_mem hc
  simp only [Expr.mk.sizeOf_spec]
  omega

/-- Token kinds: the named groups of the tokeniser regex. -/
inductive TokKind where
  | NOT | OR | AND | IMPLIES | EQUIV | LPAREN | RPAREN | SYMBOL | EOF
  deriving DecidableEq, Repr

/-- A lexical token: the matched group name plus the matched text. -/
structure Token where
  kind : TokKind
  text : String
  deriving DecidableEq, Repr

/-- Characters matched by the SYMBOL alternative [a-uw-zA-Z]: Latin letters
with lowercase v excluded (uppercase V is allowed). -/
def isSymbolChar (c : Char) : Bool :=
  ('a' ≤ c && c ≤ 'u') || ('w' ≤ c && c ≤ 'z') || ('A' ≤ c && c ≤ 'Z')

/-- The scan loop of tokenise: at each position the regex alternatives are
tried in their listed order (! v ^ -> <-> ( ) SYMBOL $); a character matching
no alternative is silently skipped; SYMBOL is a greedy run of symbol
characters; the end of input yields the EOF token.  Fuel is the remaining
character count plus one, which every branch respects since each step either
consumes at least one character or terminates. -/
def scanF : Nat → List Char → List Token
  | 0, _ => []
  | _ + 1, [] => [⟨.EOF, ""⟩]
  | fuel + 1, c :: rest =>
    if c = '!' then ⟨.NOT, "!"⟩ :: scanF fuel rest
    else if c = 'v' then ⟨.OR, "v"⟩ :: scanF fuel rest
    else if c = '^' then ⟨.AND, "^"⟩ :: scanF fuel rest
    else if c = '-' then
      match rest with
      | '>' :: rest2 => ⟨.IMPLIES, "->"⟩ :: scanF fuel rest2
      | _ => scanF fuel rest
    else if c = '<' then
      match rest with
      | '-' :: '>' :: rest2 => ⟨.EQUIV, "<->"⟩ :: scanF fuel rest2
      | _ => scanF fuel rest
    else if c = '(' then ⟨.LPAREN, "("⟩ :: scanF fuel rest
    else if c = ')' then ⟨.RPAREN, ")"⟩ :: scanF fuel rest
    else if isSymbolChar c then
      ⟨.SYMBOL, String.mk (c :: rest.takeWhile isSymbolChar)⟩
        :: scanF fuel (rest.dropWhile isSymbolChar)
    else scanF fuel rest

/-- tokenise: scan one line into tokens (in front-to-back consumption order,
ending with EOF). -/
def tokenise (s : String) : List Token :=
  scanF (s.length + 1) s.data

/-- try_match: if the next token has the requested kind, pop and return it. -/
def try_match (tokens : List Token) (k : TokKind) : Option (Token × List Token) :=
  match tokens with
  | [] => none
  | t :: rest => if t.kind = k then some (t, rest) else none

/-- match(tokens, token): like try_match but a failure raises (propagates as
none through the whole parse). -/
def match_tok (tokens : List Token) (k : TokKind) : Option (Token × List Token) :=
  try_match tokens k

mutual

/-- parse_1: parse_2 then a while loop folding IMPLIES to the left. -/
def parse_1 : Nat → List Token → Option (Expr × List Token)
  | 0, _ => none
  | fuel + 1, tokens =>
    match parse_2 fuel tokens with
    | some (left, ts) => parse_1_loop fuel left ts
    | none => none

/-- The while loop of parse_1: left = Implies(left, parse_2(tokens)). -/
def parse_1_loop : Nat → Expr → List Token → Option (Expr × List Token)
  | 0, _, _ => none
  | fuel + 1, left, tokens =>
    match try_match tokens .IMPLIES with
    | some (_, ts) =>
      match parse_2 fuel ts with
      | some (right, ts') => parse_1_loop fuel (.mk .IMPLIES "" [left, right]) ts'
      | none => none
    | none => some (left, tokens)

/-- parse_2: parse_3 then a while loop folding EQUIV to the left. -/
def parse_2 : Nat → List Token → Option (Expr × List Token)
  | 0, _ => none
  | fuel + 1, tokens =>
    match parse_3 fuel tokens with
    | some (left, ts) => parse_2_loop fuel left ts
    | none => none

/-- The while loop of parse_2: left = Equiv(left, parse_3(tokens)). -/
def parse_2_loop : Nat → Expr → List Token → Option (Expr × List Token)
  | 0, _, _ => none
  | fuel + 1, left, tokens =>
    match try_match tokens .EQUIV with
    | some (_, ts) =>
      match parse_3 fuel ts with
      | some (right, ts') => parse_2_loop fuel (.mk .EQUIV "" [left, right]) ts'
      | none => none
    | none => some (left, tokens)

/-- parse_3: parse_4 then a while loop; the right operand of OR is parse_3
itself (right-recursive). -/
def parse_3 : Nat → List Token → Option (Expr × List Token)
  | 0, _ => none
  | fuel + 1, tokens =>
    match parse_4 fuel tokens with
    | some (left, ts) => parse_3_loop fuel left ts
    | none => none

/-- The while loop of parse_3: left = Or(left, parse_3(tokens)). -/
def parse_3_loop : Nat → Expr → List Token → Option (Expr × List Token)
  | 0, _, _ => none
  | fuel + 1, left, tokens =>
    match try_match tokens .OR with
    | some (_, ts) =>
      match parse_3 fuel ts with
      | some (right, ts') => parse_3_loop fuel (.mk .OR "" [left, right]) ts'
      | none => none
    | none => some (left, tokens)

/-- parse_4: parse_5 then a while loop; note that the right operand of AND is
parse_3 (the OR level), exactly as in the source. -/
def parse_4 : Nat → List Token → Option (Expr × List Token)
  | 0, _ => none
  | fuel + 1, tokens =>
    match parse_5 fuel tokens with
    | some (left, ts) => parse_4_loop fuel left ts
    | none => none

/-- The while loop of parse_4: left = And(left, parse_3(tokens)). -/
def parse_4_loop : Nat → Expr → List Token → Option (Expr × List Token)
  | 0, _, _ => none
  | fuel + 1, left, tokens =>
    match try_match tokens .AND with
    | some (_, ts) =>
      match parse_3 fuel ts with
      | some (right, ts') => parse_4_loop fuel (.mk .AND "" [left, right]) ts'
      | none => none
    | none => some (left, tokens)

/-- parse_5: NOT unary, a SYMBOL, or a parenthesised formula; anything else
is an unexpected-token error. -/
def parse_5 : Nat → List Token → Option (Expr × List Token)
  | 0, _ => none
  | fuel + 1, tokens =>
    match try_match tokens .NOT with
    | some (_, ts) =>
      match parse_5 fuel ts with
      | some (e, ts') => some (.mk .NOT "" [e], ts')
      | none => none
    | none =>
      match try_match tokens .SYMBOL with
      | some (t, ts) => some (.mk .SYMBOL t.text [], ts)
      | none =>
        match try_match tokens .LPAREN with
        | some (_, ts) =>
          match parse_1 fuel ts with
          | some (e, ts') =>
            match match_tok ts' .RPAREN with
            | some (_, ts'') => some (.mk .PAREN "" [e], ts'')
            | none => none
          | none => none
        | none => none

end

/-- parse: parse_1 on the whole token list, then require the EOF token. -/
def parse (tokens : List Token) : Option Expr :=
  match parse_1 (8 * (tokens.length + 1)) tokens with
  | some (e, ts) =>
    match match_tok ts .EOF with
    | some _ => some e
    | none => none
  | none => none

example : tokenise "p -> q" =
    [⟨.SYMBOL, "p"⟩, ⟨.IMPLIES, "->"⟩, ⟨.SYMBOL, "q"⟩, ⟨.EOF, ""⟩] := rfl

example : tokenise "p & q" = [⟨.SYMBOL, "p"⟩, ⟨.SYMBOL, "q"⟩, ⟨.EOF, ""⟩] := rfl

example : parse (tokenise "p -> q") =
    some (.mk .IMPLIES "" [.mk .SYMBOL "p" [], .mk .SYMBOL "q" []]) := rfl

example : parse (tokenise "a -> b -> c") =
    some (.mk .IMPLIES "" [.mk .IMPLIES "" [.mk .SYMBOL "a" [], .mk .SYMBOL "b" []],
      .mk .SYMBOL "c" []]) := rfl

example : parse (tokenise "a ^ b v c") =
    some (.mk .AND "" [.mk .SYMBOL "a" [],
      .mk .OR "" [.mk .SYMBOL "b" [], .mk .SYMBOL "c" []]]) := rfl

example : parse (tokenise "!(a v b v c)") =
    some (.mk .NOT "" [.mk .PAREN "" [.mk .OR "" [.mk .SYMBOL "a" [],
      .mk .OR "" [.mk .SYMBOL "b" [], .mk .SYMBOL "c" []]]]]) := rfl

example : parse (tokenise "p ->") = none := rfl

mutual

/-- pretty: the token generator go(expr); none models the IndexError that
Python raises when an operator node has no children (children[0]). -/
def prettyTokens : Expr → Option (List String)
  | .mk h v cs =>
    match h with
    | .SYMBOL => some [v]
    | .NOT =>
      match cs with
      | [] => none
      | c :: _ =>
        match prettyTokens c with
        | some t => some ("\\neg" :: t)
        | none => none
    | .OR => seqTokens "\\lor" cs
    | .AND => seqTokens "\\land" cs
    | .IMPLIES => seqTokens "\\rightarrow" cs
    | .EQUIV => seqTokens "\\leftrightarrow" cs
    | .PAREN =>
      match cs with
      | [] => none
      | c :: _ =>
        match prettyTokens c with
        | some t => some ("(" :: (t ++ [")"]))
        | none => none

/-- go on an n-ary node: children[0] (IndexError on []) then the separator
before each remaining child. -/
def seqTokens (sep : String) : List Expr → Option (List String)
  | [] => none
  | c :: cs =>
    match prettyTokens c, seqTail sep cs with
    | some t, some ts => some (t ++ ts)
    | _, _ => none

/-- The children[1:] loop of go: each child contributes the separator and its
own tokens. -/
def seqTail (sep : String) : List Expr → Option (List String)
  | [] => some []
  | c :: cs =>
    match prettyTokens c, seqTail sep cs with
    | some t, some ts => some ((sep :: t) ++ ts)
    | _, _ => none

end

/-- pretty: join the generated tokens with single spaces. -/
def pretty (e : Expr) : Option String :=
  (prettyTokens e).map (String.intercalate " ")

/-- The flat_heads set of flatten. -/
def flat_head (h : Head) : Bool :=
  h == Head.OR || h == Head.AND

mutual

/-- flatten: Python mutates expr.children in place; here the updated tree is
returned.  Only Or/And children are recursed into; a child whose head equals
the parent head has its (already processed) children spliced in. -/
def flatten : Expr → Expr
  | .mk h v cs => .mk h v (flatten_children h cs)

/-- The new_children loop of flatten.go. -/
def flatten_children : Head → List Expr → List Expr
  | _, [] => []
  | h, c :: cs =>
    if flat_head c.head then
      if c.head == h then (flatten c).children ++ flatten_children h cs
      else flatten c :: flatten_children h cs
    else c :: flatten_children h cs

end

mutual

/-- expr_vars.go: yield the Symbol name, or recurse into children. -/
def vars_list : Expr → List String
  | .mk h v cs =>
    match h with
    | .SYMBOL => [v]
    | _ => vars_children cs

def vars_children : List Expr → List String
  | [] => []
  | c :: cs => vars_list c ++ vars_children cs

end

/-- Lexicographic order on character lists by code point (Python string
comparison). -/
def char_list_le : List Char → List Char → Bool
  | [], _ => true
  | _ :: _, [] => false
  | a :: as, b :: bs => if a < b then true else if b < a then false else char_list_le as bs

def str_le (a b : String) : Bool :=
  char_list_le a.data b.data

def insert_sorted (x : String) : List String → List String
  | [] => [x]
  | y :: ys => if str_le x y then x :: y :: ys else y :: insert_sorted x ys

/-- Ascending insertion sort (the order sorted() produces). -/
def sort_strings : List String → List String
  | [] => []
  | x :: xs => insert_sorted x (sort_strings xs)

/-- expr_vars: sorted(set(names)) — deduplicate, then sort ascending. -/
def expr_vars (e : Expr) : List String :=
  sort_strings (vars_list e).eraseDups

/-- Environments: Python dicts from variable name to 0/1; lookup finds the
most recently inserted binding, matching dict overwrite semantics. -/
abbrev Env := List (String × Bool)

/-- Evaluation errors: KeyError on an unbound variable, the two defensive
non-binary errors, and the IndexError of children[0] on a childless
Not/Paren node. -/
inductive EvalErr where
  | unbound (name : String)
  | non_binary_implies
  | non_binary_equiv
  | index_error
  deriving DecidableEq, Repr

mutual

/-- eval_expr.go: evaluate under an environment.  Implies evaluates as
(not left) or right with Python short-circuit (right untouched when left is
false); Equiv compares both sides; the non-binary checks run before any
child is evaluated. -/
def eval_expr : Expr → Env → Except EvalErr Bool
  | .mk h v cs, env =>
    match h with
    | .SYMBOL =>
      match env.lookup v with
      | some b => .ok b
      | none => .error (.unbound v)
    | .NOT =>
      match cs with
      | [] => .error .index_error
      | c :: _ =>
        match eval_expr c env with
        | .ok b => .ok (!b)
        | .error err => .error err
    | .OR => eval_any cs env
    | .AND => eval_all cs env
    | .IMPLIES =>
      match cs with
      | [c0, c1] =>
        match eval_expr c0 env with
        | .error err => .error err
        | .ok b0 => if b0 then eval_expr c1 env else .ok true
      | _ => .error .non_binary_implies
    | .EQUIV =>
      match cs with
      | [c0, c1] =>
        match eval_expr c0 env with
        | .error err => .error err
        | .ok b0 =>
          match eval_expr c1 env with
          | .error err => .error err
          | .ok b1 => .ok (b0 == b1)
      | _ => .error .non_binary_equiv
    | .PAREN =>
      match cs with
      | [] => .error .index_error
      | c :: _ => eval_expr c env

/-- any(go(child) for child in children): left to right, stop at the first
true child or the first error. -/
def eval_any : List Expr → Env → Except EvalErr Bool
  | [], _ => .ok false
  | c :: cs, env =>
    match eval_expr c env with
    | .error err => .error err
    | .ok true => .ok true
    | .ok false => eval_any cs env

/-- all(go(child) for child in children): left to right, stop at the first
false child or the first error. -/
def eval_all : List Expr → Env → Except EvalErr Bool
  | [], _ => .ok true
  | c :: cs, env =>
    match eval_expr c env with
    | .error err => .error err
    | .ok false => .ok false
    | .ok true => eval_all cs env

end

mutual

/-- subexpressions.go: post-order stream, yielding every node whose head is
neither Paren nor Symbol (after its children). -/
def postorder : Expr → List Expr
  | .mk h v cs =>
    postorder_children cs ++
      (if h = Head.PAREN ∨ h = Head.SYMBOL then [] else [.mk h v cs])

def postorder_children : List Expr → List Expr
  | [] => []
  | c :: cs => postorder c ++ postorder_children cs

end

/-- The dedup loop of subexpressions: keep a stream element only when its
rendered text is not in the pretties set yet. -/
def collect_loop : List Expr → List (Option String) → List Expr
  | [], _ => []
  | x :: xs, seen =>
    if pretty x ∈ seen then collect_loop xs seen
    else x :: collect_loop xs (pretty x :: seen)

/-- The deduplicated post-order subexpression sequence (the part of
subexpressions appended after the variable columns). -/
def collected (e : Expr) : List Expr :=
  collect_loop (postorder e) []

/-- subexpressions: one Symbol node per sorted variable, then the collected
subexpression sequence. -/
def subexpressions (e : Expr) : List Expr :=
  (expr_vars e).map (fun v => Expr.mk .SYMBOL v []) ++ collected e

/-- One pass of the assignment-doubling loop in make_table: the existing
environments extended with v=1, followed by copies extended with v=0. -/
def py_step (envs : List Env) (v : String) : List Env :=
  envs.map (fun env => (v, true) :: env) ++ envs.map (fun env => (v, false) :: env)

/-- The environment enumeration of make_table: starting from the empty dict,
fold the doubling step over reversed(variables). -/
def table_envs (variable_list : List String) : List Env :=
  variable_list.reverse.foldl py_step [[]]

/-- The closed form of the enumeration order: variable j of N carries bit
N-1-j of the row index, with bit 0 meaning true (so row 0 is all-true and
the first variable toggles slowest). -/
def env_of_index : List String → Nat → Env
  | [], _ => []
  | v :: vs, i => (v, decide (i < 2 ^ vs.length)) :: env_of_index vs (i % 2 ^ vs.length)

example : pretty (.mk .NOT "" [.mk .PAREN "" [.mk .AND ""
    [.mk .SYMBOL "p" [], .mk .SYMBOL "q" []]]]) = some "\\neg ( p \\land q )" := rfl

example : flatten (.mk .OR "" [.mk .OR "" [.mk .SYMBOL "a" [], .mk .SYMBOL "b" []],
    .mk .SYMBOL "c" []]) =
    .mk .OR "" [.mk .SYMBOL "a" [], .mk .SYMBOL "b" [], .mk .SYMBOL "c" []] := rfl

example : table_envs ["p", "q"] =
    [[("p", true), ("q", true)], [("p", true), ("q", false)],
     [("p", false), ("q", true)], [("p", false), ("q", false)]] := rfl

example : eval_expr (.mk .IMPLIES "" [.mk .SYMBOL "p" [], .mk .SYMBOL "q" []])
    [("p", true), ("q", false)] = .ok false := rfl

example : collected (.mk .NOT "" [.mk .AND "" [.mk .SYMBOL "p" [], .mk .SYMBOL "q" []]]) =
    [.mk .AND "" [.mk .SYMBOL "p" [], .mk .SYMBOL "q" []],
     .mk .NOT "" [.mk .AND "" [.mk .SYMBOL "p" [], .mk .SYMBOL "q" []]]] := rfl

example : expr_vars (.mk .AND "" [.mk .SYMBOL "q" [], .mk .SYMBOL "p" [],
    .mk .SYMBOL "q" []]) = ["p", "q"] := rfl

mutual

/-- The property claimed of flatten outputs: no node anywhere in the tree has
a direct child that is an Or under an Or or an And under an And. -/
def full_flat_ok : Expr → Bool
  | .mk h _ cs => full_flat_list h cs

def full_flat_list : Head → List Expr → Bool
  | _, [] => true
  | h, c :: cs =>
    (!(flat_head c.head && c.head == h)) && full_flat_ok c && full_flat_list h cs

end

mutual

/-- The property flatten actually establishes: along every descent from the
root that passes only through Or/And children (the region flatten.go
recurses into), no child repeats its parent Or/And variant.  Children with
other heads are not descended into, exactly like flatten.go. -/
def flat_chain_ok : Expr → Bool
  | .mk h _ cs => flat_chain_list h cs

def flat_chain_list : Head → List Expr → Bool
  | _, [] => true
  | h, c :: cs =>
    (if flat_head c.head then (!(c.head == h)) && flat_chain_ok c else true)
      && flat_chain_list h cs

end

theorem flatten_head (e : Expr) : (flatten e).head = e.head := by
  cases e
  rfl

theorem flat_chain_list_append (h : Head) (a b : List Expr) :
    flat_chain_list h (a ++ b) = (flat_chain_list h a && flat_chain_list h b) := by
  induction a with
  | nil => simp [flat_chain_list]
  | cons c cs ih => simp [flat_chain_list, ih, Bool.and_assoc]

theorem flat_chain_list_flatten_children (h : Head) (cs : List Expr)
    (hyp : ∀ c ∈ cs, flat_chain_ok (flatten c) = true) :
    flat_chain_list h (flatten_children h cs) = true := by
  induction cs with
  | nil => rfl
  | cons c cs ih =>
    have hc : flat_chain_ok (flatten c) = true := hyp c (by simp)
    have hcs : flat_chain_list h (flatten_children h cs) = true :=
      ih (fun x hx => hyp x (by simp [hx]))
    rw [flatten_children]
    by_cases hf : flat_head c.head
    · by_cases he : c.head == h
      · simp only [hf, he, if_true]
        rw [flat_chain_list_append, hcs, Bool.and_true]
        cases c with
        | mk ch cv ccs =>
          have hh : ch = h := by simpa using he
          subst hh
          simpa [flatten, flat_chain_ok] using hc
      · simp only [hf, he, if_true, if_false]
        have hhead : (flatten c).head = c.head := flatten_head c
        simp [flat_chain_list, hhead, hf, he, hc, hcs]
    · simp only [hf, if_false]
      simp [flat_chain_list, hf, hc, hcs]


/-- C1: the claim that flatten leaves no Or node with a direct Or child and
no And node with a direct And child anywhere in the tree is false: flatten.go
recurses only into Or/And children, so an Or/And chain sitting below a
non-Or/And child (here below Not applied to Paren, the parse of
!(a v b v c)) is never rewritten. -/
theorem claim_C1_counterexample :
    flatten (.mk .NOT "" [.mk .PAREN "" [.mk .OR "" [.mk .SYMBOL "a" [],
        .mk .OR "" [.mk .SYMBOL "b" [], .mk .SYMBOL "c" []]]]])
      = .mk .NOT "" [.mk .PAREN "" [.mk .OR "" [.mk .SYMBOL "a" [],
        .mk .OR "" [.mk .SYMBOL "b" [], .mk .SYMBOL "c" []]]]] ∧
    full_flat_ok (flatten (.mk .NOT "" [.mk .PAREN "" [.mk .OR "" [.mk .SYMBOL "a" [],
        .mk .OR "" [.mk .SYMBOL "b" [], .mk .SYMBOL "c" []]]]])) = false := by
  exact ⟨rfl, rfl⟩

/-- C1 (amended): after flatten, no Or/And node reachable from the root by
descending only through Or/And children has a direct child of the same
variant; Or/And nodes below a non-root non-Or/And node are left untouched. -/
theorem claim_C1_amended (e : Expr) : flat_chain_ok (flatten e) = true := by
  induction e using Expr.inductionOn with
  | step h v cs ih =>
    show flat_chain_list h (flatten_children h cs) = true
    exact flat_chain_list_flatten_children h cs ih

/-- C2: the claim is false: parse_1 folds to the LEFT, so a -> b -> c parses
as Implies(Implies(a,b),c), not as Implies(a,Implies(b,c)). -/
theorem claim_C2_counterexample :
    parse (tokenise "a -> b -> c")
      = some (.mk .IMPLIES "" [.mk .IMPLIES "" [.mk .SYMBOL "a" [], .mk .SYMBOL "b" []],
          .mk .SYMBOL "c" []]) ∧
    parse (tokenise "a -> b -> c")
      ≠ some (.mk .IMPLIES "" [.mk .SYMBOL "a" [],
          .mk .IMPLIES "" [.mk .SYMBOL "b" [], .mk .SYMBOL "c" []]]) := by
  refine ⟨rfl, fun hyp => ?_⟩
  have h2 : (some (Expr.mk .IMPLIES "" [.mk .IMPLIES "" [.mk .SYMBOL "a" [],
      .mk .SYMBOL "b" []], .mk .SYMBOL "c" []]) : Option Expr)
      = some (.mk .IMPLIES "" [.mk .SYMBOL "a" [],
          .mk .IMPLIES "" [.mk .SYMBOL "b" [], .mk .SYMBOL "c" []]]) := hyp
  simp at h2

/-- C2 (amended): chained IMPLIES parses left-nested — for any symbol
spellings, the token sequence a -> b -> c produces
Implies(Implies(a,b),c), and a <-> b <-> c produces Equiv(Equiv(a,b),c). -/
theorem claim_C2_amended (a b c : String) :
    parse [⟨.SYMBOL, a⟩, ⟨.IMPLIES, "->"⟩, ⟨.SYMBOL, b⟩, ⟨.IMPLIES, "->"⟩,
        ⟨.SYMBOL, c⟩, ⟨.EOF, ""⟩]
      = some (.mk .IMPLIES "" [.mk .IMPLIES "" [.mk .SYMBOL a [], .mk .SYMBOL b []],
          .mk .SYMBOL c []]) ∧
    parse [⟨.SYMBOL, a⟩, ⟨.EQUIV, "<->"⟩, ⟨.SYMBOL, b⟩, ⟨.EQUIV, "<->"⟩,
        ⟨.SYMBOL, c⟩, ⟨.EOF, ""⟩]
      = some (.mk .EQUIV "" [.mk .EQUIV "" [.mk .SYMBOL a [], .mk .SYMBOL b []],
          .mk .SYMBOL c []]) := by
  exact ⟨rfl, rfl⟩

/-- C7: the claim is false: the tokeniser regex lists only !, v and ^ as
operator spellings; the ampersand matches no alternative, is skipped, and
tokenising p & q yields SYMBOL SYMBOL END rather than SYMBOL AND SYMBOL
END. -/
theorem claim_C7_counterexample :
    tokenise "p & q" = [⟨.SYMBOL, "p"⟩, ⟨.SYMBOL, "q"⟩, ⟨.EOF, ""⟩] ∧
    (tokenise "p & q").map Token.kind ≠ [.SYMBOL, .AND, .SYMBOL, .EOF] := by
  exact ⟨rfl, by decide⟩

/-- C7 (amended): each operator has exactly one spelling — ! for NOT, v for
OR, ^ for AND; the characters ~, | and & match no lexeme and are silently
skipped. -/
theorem claim_C7_amended :
    tokenise "!p" = [⟨.NOT, "!"⟩, ⟨.SYMBOL, "p"⟩, ⟨.EOF, ""⟩] ∧
    tokenise "~p" = [⟨.SYMBOL, "p"⟩, ⟨.EOF, ""⟩] ∧
    tokenise "a v b" = [⟨.SYMBOL, "a"⟩, ⟨.OR, "v"⟩, ⟨.SYMBOL, "b"⟩, ⟨.EOF, ""⟩] ∧
    tokenise "a | b" = [⟨.SYMBOL, "a"⟩, ⟨.SYMBOL, "b"⟩, ⟨.EOF, ""⟩] ∧
    tokenise "p ^ q" = [⟨.SYMBOL, "p"⟩, ⟨.AND, "^"⟩, ⟨.SYMBOL, "q"⟩, ⟨.EOF, ""⟩] ∧
    tokenise "p & q" = [⟨.SYMBOL, "p"⟩, ⟨.SYMBOL, "q"⟩, ⟨.EOF, ""⟩] := by
  exact ⟨rfl, rfl, rfl, rfl, rfl, rfl⟩

/-- C8: confirmed — parse_4 takes the right operand of AND via parse_3 (the
OR level), so a ^ b v c parses as And(a, Or(b,c)); the general token-level
statement holds for any symbol spellings. -/
theorem claim_C8 :
    parse (tokenise "a ^ b v c")
      = some (.mk .AND "" [.mk .SYMBOL "a" [],
          .mk .OR "" [.mk .SYMBOL "b" [], .mk .SYMBOL "c" []]]) ∧
    ∀ a b c : String,
      parse [⟨.SYMBOL, a⟩, ⟨.AND, "^"⟩, ⟨.SYMBOL, b⟩, ⟨.OR, "v"⟩,
          ⟨.SYMBOL, c⟩, ⟨.EOF, ""⟩]
        = some (.mk .AND "" [.mk .SYMBOL a [],
            .mk .OR "" [.mk .SYMBOL b [], .mk .SYMBOL c []]]) := by
  exact ⟨rfl, fun a b c => rfl⟩

/-- What flatten.go does to one child of a non-Or/And parent: Or/And
children are flattened in place, all others kept as they are. -/
def flatten_child (c : Expr) : Expr :=
  if flat_head c.head then flatten c else c

theorem flatten_children_eq_map (h : Head) (hh : flat_head h = false) (cs : List Expr) :
    flatten_children h cs = cs.map flatten_child := by
  induction cs with
  | nil => rfl
  | cons c cs ih =>
    by_cases hf : flat_head c.head
    · have hne : (c.head == h) = false := by
        cases hbe : c.head == h
        · rfl
        · exfalso
          have heq : c.head = h := by simpa using hbe
          rw [heq, hh] at hf
          exact Bool.false_ne_true hf
      simp [flatten_children, hf, hne, flatten_child, ih]
    · simp [flatten_children, hf, flatten_child, ih]

theorem eval_any_append (a b : List Expr) (env : Env) :
    eval_any (a ++ b) env =
      match eval_any a env with
      | .error err => .error err
      | .ok true => .ok true
      | .ok false => eval_any b env := by
  induction a with
  | nil => simp [eval_any]
  | cons c cs ih =>
    simp only [List.cons_append, eval_any]
    cases heval : eval_expr c env with
    | error err => rfl
    | ok bval => cases bval <;> simp [ih]

theorem eval_all_append (a b : List Expr) (env : Env) :
    eval_all (a ++ b) env =
      match eval_all a env with
      | .error err => .error err
      | .ok false => .ok false
      | .ok true => eval_all b env := by
  induction a with
  | nil => simp [eval_all]
  | cons c cs ih =>
    simp only [List.cons_append, eval_all]
    cases heval : eval_expr c env with
    | error err => rfl
    | ok bval => cases bval <;> simp [ih]

theorem eval_any_flatten_children (cs : List Expr) (env : Env)
    (ih : ∀ c ∈ cs, eval_expr (flatten c) env = eval_expr c env) :
    eval_any (flatten_children Head.OR cs) env = eval_any cs env := by
  induction cs with
  | nil => rfl
  | cons c cs iht =>
    have ihc : eval_expr (flatten c) env = eval_expr c env := ih c (by simp)
    have ihcs : eval_any (flatten_children Head.OR cs) env = eval_any cs env :=
      iht (fun x hx => ih x (by simp [hx]))
    by_cases hf : flat_head c.head
    · by_cases he : c.head == Head.OR
      · cases c with
        | mk ch cv ccs =>
          have hch : ch = Head.OR := by simpa [Expr.head] using he
          subst hch
          have hflat : flatten (Expr.mk Head.OR cv ccs)
              = Expr.mk Head.OR cv (flatten_children Head.OR ccs) := rfl
          have hinner : eval_any (flatten_children Head.OR ccs) env = eval_any ccs env := by
            have := ihc
            rw [hflat] at this
            simpa [eval_expr] using this
          simp only [flatten_children, hf, he, if_true, hflat, Expr.children]
          rw [eval_any_append, hinner]
          show _ = eval_any (Expr.mk Head.OR cv ccs :: cs) env
          simp only [eval_any, eval_expr]
          cases eval_any ccs env with
          | error err => rfl
          | ok bval => cases bval <;> simp [ihcs]
      · simp only [flatten_children, hf, he, if_true, if_false]
        simp only [eval_any, ihc, ihcs]
    · simp only [flatten_children, hf, if_false]
      simp only [eval_any, ihcs]

theorem eval_all_flatten_children (cs : List Expr) (env : Env)
    (ih : ∀ c ∈ cs, eval_expr (flatten c) env = eval_expr c env) :
    eval_all (flatten_children Head.AND cs) env = eval_all cs env := by
  induction cs with
  | nil => rfl
  | cons c cs iht =>
    have ihc : eval_expr (flatten c) env = eval_expr c env := ih c (by simp)
    have ihcs : eval_all (flatten_children Head.AND cs) env = eval_all cs env :=
      iht (fun x hx => ih x (by simp [hx]))
    by_cases hf : flat_head c.head
    · by_cases he : c.head == Head.AND
      · cases c with
        | mk ch cv ccs =>
          have hch : ch = Head.AND := by simpa [Expr.head] using he
          subst hch
          have hflat : flatten (Expr.mk Head.AND cv ccs)
              = Expr.mk Head.AND cv (flatten_children Head.AND ccs) := rfl
          have hinner : eval_all (flatten_children Head.AND ccs) env = eval_all ccs env := by
            have := ihc
            rw [hflat] at this
            simpa [eval_expr] using this
          simp only [flatten_children, hf, he, if_true, hflat, Expr.children]
          rw [eval_all_append, hinner]
          show _ = eval_all (Expr.mk Head.AND cv ccs :: cs) env
          simp only [eval_all, eval_expr]
          cases eval_all ccs env with
          | error err => rfl
          | ok bval => cases bval <;> simp [ihcs]
      · simp only [flatten_children, hf, he, if_true, if_false]
        simp only [eval_all, ihc, ihcs]
    · simp only [flatten_children, hf, if_false]
      simp only [eval_all, ihcs]

theorem eval_flatten_child (c : Expr) (env : Env)
    (ihc : eval_expr (flatten c) env = eval_expr c env) :
    eval_expr (flatten_child c) env = eval_expr c env := by
  by_cases hf : flat_head c.head <;> simp [flatten_child, hf, ihc]

/-- C4: confirmed — flattening preserves evaluation exactly, including the
error outcomes, for every expression and every environment (the claim only
needs environments total over the variables, which is a special case). -/
theorem claim_C4 (e : Expr) (env : Env) :
    eval_expr (flatten e) env = eval_expr e env := by
  induction e using Expr.inductionOn with
  | step h v cs ih =>
    have ih' : ∀ c ∈ cs, eval_expr (flatten c) env = eval_expr c env :=
      fun c hc => ih c hc
    cases h with
    | SYMBOL => rfl
    | OR =>
      show eval_any (flatten_children Head.OR cs) env = eval_any cs env
      exact eval_any_flatten_children cs env ih'
    | AND =>
      show eval_all (flatten_children Head.AND cs) env = eval_all cs env
      exact eval_all_flatten_children cs env ih'
    | NOT =>
      show eval_expr (Expr.mk Head.NOT v (flatten_children Head.NOT cs)) env = _
      rw [flatten_children_eq_map Head.NOT rfl cs]
      cases cs with
      | nil => rfl
      | cons c rest =>
        have := eval_flatten_child c env (ih' c (by simp))
        simp only [List.map_cons, eval_expr, this]
    | PAREN =>
      show eval_expr (Expr.mk Head.PAREN v (flatten_children Head.PAREN cs)) env = _
      rw [flatten_children_eq_map Head.PAREN rfl cs]
      cases cs with
      | nil => rfl
      | cons c rest =>
        have := eval_flatten_child c env (ih' c (by simp))
        simp only [List.map_cons, eval_expr, this]
    | IMPLIES =>
      show eval_expr (Expr.mk Head.IMPLIES v (flatten_children Head.IMPLIES cs)) env = _
      rw [flatten_children_eq_map Head.IMPLIES rfl cs]
      match cs with
      | [] => rfl
      | [c] => rfl
      | [c0, c1] =>
        have h0 := eval_flatten_child c0 env (ih' c0 (by simp))
        have h1 := eval_flatten_child c1 env (ih' c1 (by simp))
        simp only [List.map_cons, List.map_nil, eval_expr, h0, h1]
      | c0 :: c1 :: c2 :: rest => rfl
    | EQUIV =>
      show eval_expr (Expr.mk Head.EQUIV v (flatten_children Head.EQUIV cs)) env = _
      rw [flatten_children_eq_map Head.EQUIV rfl cs]
      match cs with
      | [] => rfl
      | [c] => rfl
      | [c0, c1] =>
        have h0 := eval_flatten_child c0 env (ih' c0 (by simp))
        have h1 := eval_flatten_child c1 env (ih' c1 (by simp))
        simp only [List.map_cons, List.map_nil, eval_expr, h0, h1]
      | c0 :: c1 :: c2 :: rest => rfl

mutual

/-- Every Or/And node of the tree has at least one child (true of every tree
the parser produces, where they always have exactly two). -/
def or_and_nonempty : Expr → Bool
  | .mk h _ cs => (!(flat_head h) || !cs.isEmpty) && or_and_nonempty_list cs

def or_and_nonempty_list : List Expr → Bool
  | [] => true
  | c :: cs => or_and_nonempty c && or_and_nonempty_list cs

end

theorem or_and_nonempty_list_mem {cs : List Expr} (h : or_and_nonempty_list cs = true) :
    ∀ c ∈ cs, or_and_nonempty c = true := by
  induction cs with
  | nil => simp
  | cons c cs ih =>
    simp only [or_and_nonempty_list, Bool.and_eq_true] at h
    intro x hx
    rcases List.mem_cons.mp hx with hx | hx
    · exact hx ▸ h.1
    · exact ih h.2 x hx

theorem seqTail_append (sep : String) (a b : List Expr) :
    seqTail sep (a ++ b) =
      match seqTail sep a, seqTail sep b with
      | some t, some u => some (t ++ u)
      | _, _ => none := by
  induction a with
  | nil =>
    simp only [List.nil_append, seqTail]
    cases seqTail sep b <;> simp
  | cons c cs ih =>
    simp only [List.cons_append, seqTail, List.append_eq]
    rw [ih]
    cases prettyTokens c <;> cases seqTail sep cs <;> cases seqTail sep b <;> simp

theorem seqTail_eq_map (sep : String) (b : List Expr) (hb : b ≠ []) :
    seqTail sep b = (seqTokens sep b).map (fun l => sep :: l) := by
  cases b with
  | nil => exact absurd rfl hb
  | cons c cs =>
    simp only [seqTail, seqTokens]
    cases prettyTokens c <;> cases seqTail sep cs <;> simp

theorem seqTokens_append (sep : String) (a b : List Expr) (ha : a ≠ []) (hb : b ≠ []) :
    seqTokens sep (a ++ b) =
      match seqTokens sep a, seqTokens sep b with
      | some t, some u => some (t ++ (sep :: u))
      | _, _ => none := by
  cases a with
  | nil => exact absurd rfl ha
  | cons c cs =>
    simp only [List.cons_append, seqTokens, seqTail_append, seqTail_eq_map sep b hb]
    cases prettyTokens c <;> cases seqTail sep cs <;> cases seqTokens sep b <;> simp

theorem flatten_nonempty_children (c : Expr) (h1 : or_and_nonempty c = true)
    (h2 : flat_head c.head = true) : (flatten c).children ≠ [] := by
  induction c using Expr.inductionOn with
  | step h v cs ih =>
    simp only [or_and_nonempty, Bool.and_eq_true] at h1
    simp only [Expr.head] at h2
    have hcs : cs ≠ [] := by
      cases cs with
      | nil =>
        exfalso
        rcases h1.1 with h1a
        simp [h2] at h1a
      | cons a as => simp
    have hmem := or_and_nonempty_list_mem h1.2
    show flatten_children h cs ≠ []
    cases cs with
    | nil => exact absurd rfl hcs
    | cons c0 rest =>
      by_cases hf : flat_head c0.head
      · by_cases he : c0.head == h
        · simp only [flatten_children, hf, he, if_true]
          have hne : (flatten c0).children ≠ [] :=
            ih c0 (by simp) (hmem c0 (by simp)) hf
          simp only [ne_eq, List.append_eq_nil]
          intro hcon
          exact hne hcon.1
        · simp [flatten_children, hf, he]
      · simp [flatten_children, hf]

theorem flatten_children_nonempty (h : Head) (cs : List Expr) (hcs : cs ≠ [])
    (hmem : ∀ c ∈ cs, or_and_nonempty c = true) : flatten_children h cs ≠ [] := by
  cases cs with
  | nil => exact absurd rfl hcs
  | cons c0 rest =>
    by_cases hf : flat_head c0.head
    · by_cases he : c0.head == h
      · simp only [flatten_children, hf, he, if_true]
        have hne : (flatten c0).children ≠ [] :=
          flatten_nonempty_children c0 (hmem c0 (by simp)) hf
        simp only [ne_eq, List.append_eq_nil]
        intro hcon
        exact hne hcon.1
      · simp [flatten_children, hf, he]
    · simp [flatten_children, hf]

theorem pret_flatten_child (c : Expr)
    (hc : prettyTokens (flatten c) = prettyTokens c) :
    prettyTokens (flatten_child c) = prettyTokens c := by
  by_cases hf : flat_head c.head <;> simp [flatten_child, hf, hc]

theorem seqTail_map_fc (sep : String) (cs : List Expr)
    (h : ∀ c ∈ cs, prettyTokens (flatten_child c) = prettyTokens c) :
    seqTail sep (cs.map flatten_child) = seqTail sep cs := by
  induction cs with
  | nil => rfl
  | cons c rest ih =>
    simp only [List.map_cons, seqTail, h c (by simp),
      ih (fun x hx => h x (by simp [hx]))]

theorem seqTokens_map_fc (sep : String) (cs : List Expr)
    (h : ∀ c ∈ cs, prettyTokens (flatten_child c) = prettyTokens c) :
    seqTokens sep (cs.map flatten_child) = seqTokens sep cs := by
  cases cs with
  | nil => rfl
  | cons c rest =>
    simp only [List.map_cons, seqTokens, h c (by simp),
      seqTail_map_fc sep rest (fun x hx => h x (by simp [hx]))]

theorem seqTokens_cons_ne (sep : String) (c : Expr) (rest : List Expr) (h : rest ≠ []) :
    seqTokens sep (c :: rest) =
      match prettyTokens c, seqTokens sep rest with
      | some t, some u => some (t ++ (sep :: u))
      | _, _ => none := by
  cases rest with
  | nil => exact absurd rfl h
  | cons r rs =>
    simp only [seqTokens, seqTail_eq_map sep (r :: rs) (by simp)]
    cases prettyTokens c <;> cases prettyTokens r <;> cases seqTail sep rs <;> simp

theorem seqTokens_flatten_children (h : Head) (sep : String)
    (hflat : flat_head h = true)
    (hpret : ∀ cv ccs, prettyTokens (Expr.mk h cv ccs) = seqTokens sep ccs)
    (cs : List Expr)
    (h1 : ∀ c ∈ cs, or_and_nonempty c = true)
    (h2 : ∀ c ∈ cs, prettyTokens (flatten c) = prettyTokens c) :
    seqTokens sep (flatten_children h cs) = seqTokens sep cs := by
  induction cs with
  | nil => rfl
  | cons c rest ih =>
    have h1c := h1 c (by simp)
    have h2c := h2 c (by simp)
    have h1r : ∀ x ∈ rest, or_and_nonempty x = true := fun x hx => h1 x (by simp [hx])
    have h2r : ∀ x ∈ rest, prettyTokens (flatten x) = prettyTokens x :=
      fun x hx => h2 x (by simp [hx])
    have ihr := ih h1r h2r
    by_cases hf : flat_head c.head
    · by_cases he : c.head == h
      · cases c with
        | mk ch cv ccs =>
          have hch : h = ch := by
            have hch0 : ch = h := by simpa [Expr.head] using he
            exact hch0.symm
          subst hch
          have hAseq : seqTokens sep (flatten_children h ccs)
              = prettyTokens (Expr.mk h cv ccs) := by
            calc seqTokens sep (flatten_children h ccs)
                = prettyTokens (Expr.mk h cv (flatten_children h ccs)) :=
                  (hpret cv (flatten_children h ccs)).symm
              _ = prettyTokens (Expr.mk h cv ccs) := h2c
          have hccs : ccs ≠ [] := by
            cases ccs with
            | nil =>
              exfalso
              simp only [or_and_nonempty, Bool.and_eq_true] at h1c
              rcases h1c.1 with h1a
              simp [hflat] at h1a
            | cons a as => simp
          have hccs_mem : ∀ x ∈ ccs, or_and_nonempty x = true := by
            simp only [or_and_nonempty, Bool.and_eq_true] at h1c
            exact or_and_nonempty_list_mem h1c.2
          have hAne : flatten_children h ccs ≠ [] :=
            flatten_children_nonempty h ccs hccs hccs_mem
          have hfc : flatten_children h (Expr.mk h cv ccs :: rest)
              = flatten_children h ccs ++ flatten_children h rest := by
            simp [flatten_children, hf, he,
              show (flatten (Expr.mk h cv ccs)).children = flatten_children h ccs from rfl]
          rw [hfc]
          cases rest with
          | nil =>
            simp only [flatten_children, List.append_nil]
            rw [hAseq, hpret]
            show _ = seqTokens sep [Expr.mk h cv ccs]
            simp only [seqTokens, seqTail, hpret]
            cases seqTokens sep ccs <;> simp
          | cons r rs =>
            have hrestne : (r :: rs : List Expr) ≠ [] := by simp
            have hFne : flatten_children h (r :: rs) ≠ [] :=
              flatten_children_nonempty h (r :: rs) hrestne h1r
            rw [seqTokens_append sep _ _ hAne hFne, hAseq, ihr,
              seqTokens_cons_ne sep _ _ hrestne]
      · have hfc : flatten_children h (c :: rest)
            = flatten c :: flatten_children h rest := by
          simp [flatten_children, hf, he]
        rw [hfc]
        cases rest with
        | nil =>
          simp only [flatten_children, seqTokens, seqTail, h2c]
        | cons r rs =>
          have hrestne : (r :: rs : List Expr) ≠ [] := by simp
          have hFne : flatten_children h (r :: rs) ≠ [] :=
            flatten_children_nonempty h (r :: rs) hrestne h1r
          rw [seqTokens_cons_ne sep _ _ hFne, seqTokens_cons_ne sep _ _ hrestne,
            h2c, ihr]
    · have hfc : flatten_children h (c :: rest)
          = c :: flatten_children h rest := by
        simp [flatten_children, hf]
      rw [hfc]
      cases rest with
      | nil => rfl
      | cons r rs =>
        have hrestne : (r :: rs : List Expr) ≠ [] := by simp
        have hFne : flatten_children h (r :: rs) ≠ [] :=
          flatten_children_nonempty h (r :: rs) hrestne h1r
        rw [seqTokens_cons_ne sep _ _ hFne, seqTokens_cons_ne sep _ _ hrestne, ihr]

theorem pretty_tokens_flatten (e : Expr) (hok : or_and_nonempty e = true) :
    prettyTokens (flatten e) = prettyTokens e := by
  induction e using Expr.inductionOn with
  | step h v cs ih =>
    simp only [or_and_nonempty, Bool.and_eq_true] at hok
    have h1 : ∀ c ∈ cs, or_and_nonempty c = true := or_and_nonempty_list_mem hok.2
    have h2 : ∀ c ∈ cs, prettyTokens (flatten c) = prettyTokens c :=
      fun c hc => ih c hc (h1 c hc)
    have h2fc : ∀ c ∈ cs, prettyTokens (flatten_child c) = prettyTokens c :=
      fun c hc => pret_flatten_child c (h2 c hc)
    cases h with
    | SYMBOL => rfl
    | OR =>
      show seqTokens "\\lor" (flatten_children Head.OR cs) = seqTokens "\\lor" cs
      exact seqTokens_flatten_children Head.OR "\\lor" rfl (fun cv ccs => rfl) cs h1 h2
    | AND =>
      show seqTokens "\\land" (flatten_children Head.AND cs) = seqTokens "\\land" cs
      exact seqTokens_flatten_children Head.AND "\\land" rfl (fun cv ccs => rfl) cs h1 h2
    | IMPLIES =>
      show seqTokens "\\rightarrow" (flatten_children Head.IMPLIES cs) = _
      rw [flatten_children_eq_map Head.IMPLIES rfl cs]
      exact seqTokens_map_fc "\\rightarrow" cs h2fc
    | EQUIV =>
      show seqTokens "\\leftrightarrow" (flatten_children Head.EQUIV cs) = _
      rw [flatten_children_eq_map Head.EQUIV rfl cs]
      exact seqTokens_map_fc "\\leftrightarrow" cs h2fc
    | NOT =>
      show prettyTokens (Expr.mk Head.NOT v (flatten_children Head.NOT cs)) = _
      rw [flatten_children_eq_map Head.NOT rfl cs]
      cases cs with
      | nil => rfl
      | cons c rest =>
        simp only [List.map_cons, prettyTokens, h2fc c (by simp)]
    | PAREN =>
      show prettyTokens (Expr.mk Head.PAREN v (flatten_children Head.PAREN cs)) = _
      rw [flatten_children_eq_map Head.PAREN rfl cs]
      cases cs with
      | nil => rfl
      | cons c rest =>
        simp only [List.map_cons, prettyTokens, h2fc c (by simp)]

/-- C10: the claim that pretty is invariant under flatten for every Expr is
false: splicing a childless Or node away removes the IndexError that pretty
would have raised, so on Or(Or(), d) flattening turns a crashing
pretty-print into the string d. -/
theorem claim_C10_counterexample :
    pretty (flatten (.mk .OR "" [.mk .OR "" [], .mk .SYMBOL "d" []])) = some "d" ∧
    pretty (.mk .OR "" [.mk .OR "" [], .mk .SYMBOL "d" []]) = none := by
  exact ⟨rfl, rfl⟩

/-- C10 (amended): for every Expr whose Or/And nodes all have at least one
child (every tree the program ever builds has two), pretty-printing is
invariant under flattening, so flattening changes no column header and no
dedup key. -/
theorem claim_C10_amended (e : Expr) (hok : or_and_nonempty e = true) :
    pretty (flatten e) = pretty e := by
  simp only [pretty, pretty_tokens_flatten e hok]

/-- Witness for C10 (amended) at the parse of a v b v c. -/
theorem claim_C10_amended_witness :
    or_and_nonempty (.mk .OR "" [.mk .SYMBOL "a" [],
        .mk .OR "" [.mk .SYMBOL "b" [], .mk .SYMBOL "c" []]]) = true ∧
    pretty (flatten (.mk .OR "" [.mk .SYMBOL "a" [],
        .mk .OR "" [.mk .SYMBOL "b" [], .mk .SYMBOL "c" []]]))
      = pretty (.mk .OR "" [.mk .SYMBOL "a" [],
        .mk .OR "" [.mk .SYMBOL "b" [], .mk .SYMBOL "c" []]]) := by
  exact ⟨rfl, claim_C10_amended _ rfl⟩

mutual

/-- Every Implies/Equiv node in the tree has exactly two children. -/
def imp_eq_bin : Expr → Bool
  | .mk h _ cs =>
    (!(h == Head.IMPLIES || h == Head.EQUIV) || cs.length == 2) && imp_eq_bin_list cs

def imp_eq_bin_list : List Expr → Bool
  | [] => true
  | c :: cs => imp_eq_bin c && imp_eq_bin_list cs

end

theorem imp_eq_bin_list_mem {cs : List Expr} (h : imp_eq_bin_list cs = true) :
    ∀ c ∈ cs, imp_eq_bin c = true := by
  induction cs with
  | nil => simp
  | cons c cs ih =>
    simp only [imp_eq_bin_list, Bool.and_eq_true] at h
    intro x hx
    rcases List.mem_cons.mp hx with hx | hx
    · exact hx ▸ h.1
    · exact ih h.2 x hx

theorem parse_all_imp_eq_bin : ∀ fuel : Nat,
    (∀ ts e ts', parse_1 fuel ts = some (e, ts') → imp_eq_bin e = true) ∧
    (∀ left ts e ts', imp_eq_bin left = true →
      parse_1_loop fuel left ts = some (e, ts') → imp_eq_bin e = true) ∧
    (∀ ts e ts', parse_2 fuel ts = some (e, ts') → imp_eq_bin e = true) ∧
    (∀ left ts e ts', imp_eq_bin left = true →
      parse_2_loop fuel left ts = some (e, ts') → imp_eq_bin e = true) ∧
    (∀ ts e ts', parse_3 fuel ts = some (e, ts') → imp_eq_bin e = true) ∧
    (∀ left ts e ts', imp_eq_bin left = true →
      parse_3_loop fuel left ts = some (e, ts') → imp_eq_bin e = true) ∧
    (∀ ts e ts', parse_4 fuel ts = some (e, ts') → imp_eq_bin e = true) ∧
    (∀ left ts e ts', imp_eq_bin left = true →
      parse_4_loop fuel left ts = some (e, ts') → imp_eq_bin e = true) ∧
    (∀ ts e ts', parse_5 fuel ts = some (e, ts') → imp_eq_bin e = true) := by
  intro fuel
  induction fuel with
  | zero =>
    refine ⟨fun ts e ts' hp => ?_, fun l ts e ts' hl hp => ?_, fun ts e ts' hp => ?_,
      fun l ts e ts' hl hp => ?_, fun ts e ts' hp => ?_, fun l ts e ts' hl hp => ?_,
      fun ts e ts' hp => ?_, fun l ts e ts' hl hp => ?_, fun ts e ts' hp => ?_⟩
    all_goals simp [parse_1, parse_1_loop, parse_2, parse_2_loop, parse_3,
      parse_3_loop, parse_4, parse_4_loop, parse_5] at hp
  | succ fuel ih =>
    obtain ⟨ih1, ih1l, ih2, ih2l, ih3, ih3l, ih4, ih4l, ih5⟩ := ih
    refine ⟨?_, ?_, ?_, ?_, ?_, ?_, ?_, ?_, ?_⟩
    · intro ts e ts' hp
      simp only [parse_1] at hp
      split at hp
      · rename_i left ts1 heq
        exact ih1l left ts1 e ts' (ih2 ts left ts1 heq) hp
      · exact Option.noConfusion hp
    · intro left ts e ts' hleft hp
      simp only [parse_1_loop] at hp
      split at hp
      · rename_i tok ts1 heq
        split at hp
        · rename_i right ts2 heq2
          refine ih1l _ _ _ _ ?_ hp
          simp [imp_eq_bin, imp_eq_bin_list, hleft, ih2 _ _ _ heq2]
        · exact Option.noConfusion hp
      · rename_i heq
        rw [Option.some.injEq, Prod.mk.injEq] at hp
        obtain ⟨rfl, rfl⟩ := hp
        exact hleft
    · intro ts e ts' hp
      simp only [parse_2] at hp
      split at hp
      · rename_i left ts1 heq
        exact ih2l left ts1 e ts' (ih3 ts left ts1 heq) hp
      · exact Option.noConfusion hp
    · intro left ts e ts' hleft hp
      simp only [parse_2_loop] at hp
      split at hp
      · rename_i tok ts1 heq
        split at hp
        · rename_i right ts2 heq2
          refine ih2l _ _ _ _ ?_ hp
          simp [imp_eq_bin, imp_eq_bin_list, hleft, ih3 _ _ _ heq2]
        · exact Option.noConfusion hp
      · rename_i heq
        rw [Option.some.injEq, Prod.mk.injEq] at hp
        obtain ⟨rfl, rfl⟩ := hp
        exact hleft
    · intro ts e ts' hp
      simp only [parse_3] at hp
      split at hp
      · rename_i left ts1 heq
        exact ih3l left ts1 e ts' (ih4 ts left ts1 heq) hp
      · exact Option.noConfusion hp
    · intro left ts e ts' hleft hp
      simp only [parse_3_loop] at hp
      split at hp
      · rename_i tok ts1 heq
        split at hp
        · rename_i right ts2 heq2
          refine ih3l _ _ _ _ ?_ hp
          simp [imp_eq_bin, imp_eq_bin_list, hleft, ih3 _ _ _ heq2]
        · exact Option.noConfusion hp
      · rename_i heq
        rw [Option.some.injEq, Prod.mk.injEq] at hp
        obtain ⟨rfl, rfl⟩ := hp
        exact hleft
    · intro ts e ts' hp
      simp only [parse_4] at hp
      split at hp
      · rename_i left ts1 heq
        exact ih4l left ts1 e ts' (ih5 ts left ts1 heq) hp
      · exact Option.noConfusion hp
    · intro left ts e ts' hleft hp
      simp only [parse_4_loop] at hp
      split at hp
      · rename_i tok ts1 heq
        split at hp
        · rename_i right ts2 heq2
          refine ih4l _ _ _ _ ?_ hp
          simp [imp_eq_bin, imp_eq_bin_list, hleft, ih3 _ _ _ heq2]
        · exact Option.noConfusion hp
      · rename_i heq
        rw [Option.some.injEq, Prod.mk.injEq] at hp
        obtain ⟨rfl, rfl⟩ := hp
        exact hleft
    · intro ts e ts' hp
      simp only [parse_5] at hp
      split at hp
      · rename_i tok ts1 heq
        split at hp
        · rename_i e1 ts2 heq5
          rw [Option.some.injEq, Prod.mk.injEq] at hp
          obtain ⟨rfl, rfl⟩ := hp
          simp [imp_eq_bin, imp_eq_bin_list, ih5 _ _ _ heq5]
        · exact Option.noConfusion hp
      · rename_i heqn
        split at hp
        · rename_i tok ts1 heq
          rw [Option.some.injEq, Prod.mk.injEq] at hp
          obtain ⟨rfl, rfl⟩ := hp
          rfl
        · rename_i heqs
          split at hp
          · rename_i tok ts1 heq
            split at hp
            · rename_i e1 ts2 heq1
              split at hp
              · rename_i tok2 ts3 heqr
                rw [Option.some.injEq, Prod.mk.injEq] at hp
                obtain ⟨rfl, rfl⟩ := hp
                simp [imp_eq_bin, imp_eq_bin_list, ih1 _ _ _ heq1]
              · exact Option.noConfusion hp
            · exact Option.noConfusion hp
          · exact Option.noConfusion hp

theorem imp_eq_bin_children (e : Expr) (h : imp_eq_bin e = true) :
    imp_eq_bin_list e.children = true := by
  cases e with
  | mk eh ev ecs =>
    simp only [imp_eq_bin, Bool.and_eq_true] at h
    exact h.2

theorem imp_eq_bin_list_append (a b : List Expr) :
    imp_eq_bin_list (a ++ b) = (imp_eq_bin_list a && imp_eq_bin_list b) := by
  induction a with
  | nil => simp [imp_eq_bin_list]
  | cons c cs ih => simp [imp_eq_bin_list, ih, Bool.and_assoc]

theorem imp_eq_bin_list_flatten_children (h : Head) (cs : List Expr)
    (h1 : ∀ c ∈ cs, imp_eq_bin c = true)
    (h2 : ∀ c ∈ cs, imp_eq_bin (flatten c) = true) :
    imp_eq_bin_list (flatten_children h cs) = true := by
  induction cs with
  | nil => rfl
  | cons c rest ih =>
    have ihr := ih (fun x hx => h1 x (by simp [hx])) (fun x hx => h2 x (by simp [hx]))
    by_cases hf : flat_head c.head
    · by_cases he : c.head == h
      · have hfc : flatten_children h (c :: rest)
            = (flatten c).children ++ flatten_children h rest := by
          simp [flatten_children, hf, he]
        rw [hfc, imp_eq_bin_list_append,
          imp_eq_bin_children (flatten c) (h2 c (by simp)), ihr]
        rfl
      · have hfc : flatten_children h (c :: rest)
            = flatten c :: flatten_children h rest := by
          simp [flatten_children, hf, he]
        rw [hfc]
        simp [imp_eq_bin_list, h2 c (by simp), ihr]
    · have hfc : flatten_children h (c :: rest) = c :: flatten_children h rest := by
        simp [flatten_children, hf]
      rw [hfc]
      simp [imp_eq_bin_list, h1 c (by simp), ihr]

theorem imp_eq_bin_flatten (e : Expr) (he : imp_eq_bin e = true) :
    imp_eq_bin (flatten e) = true := by
  induction e using Expr.inductionOn with
  | step h v cs ih =>
    simp only [imp_eq_bin, Bool.and_eq_true] at he
    have h1 := imp_eq_bin_list_mem he.2
    have h2 : ∀ c ∈ cs, imp_eq_bin (flatten c) = true := fun c hc => ih c hc (h1 c hc)
    show imp_eq_bin (Expr.mk h v (flatten_children h cs)) = true
    simp only [imp_eq_bin, Bool.and_eq_true]
    refine ⟨?_, imp_eq_bin_list_flatten_children h cs h1 h2⟩
    cases hie : (h == Head.IMPLIES || h == Head.EQUIV) with
    | false => simp [hie]
    | true =>
      have hor : h = Head.IMPLIES ∨ h = Head.EQUIV := by
        have hie2 := hie
        simp only [Bool.or_eq_true, beq_iff_eq] at hie2
        exact hie2
      have hflat2 : flat_head h = false := by
        rcases hor with rfl | rfl <;> rfl
      have hg := he.1
      rw [hie] at hg
      have hlen : cs.length = 2 := by simpa using hg
      simp only [Bool.not_true, Bool.false_or]
      rw [flatten_children_eq_map h hflat2]
      simp [hlen]

theorem eval_any_no_nonbinary (cs : List Expr) (env : Env)
    (h : ∀ c ∈ cs, eval_expr c env ≠ .error .non_binary_implies ∧
      eval_expr c env ≠ .error .non_binary_equiv) :
    eval_any cs env ≠ .error .non_binary_implies ∧
      eval_any cs env ≠ .error .non_binary_equiv := by
  induction cs with
  | nil => exact ⟨fun hcon => Except.noConfusion hcon, fun hcon => Except.noConfusion hcon⟩
  | cons c rest ih =>
    have hc := h c (by simp)
    have ihr := ih (fun x hx => h x (by simp [hx]))
    have hrw : eval_any (c :: rest) env =
        (match eval_expr c env with
          | .error err => .error err
          | .ok true => .ok true
          | .ok false => eval_any rest env) := rfl
    rw [hrw]
    cases heval : eval_expr c env with
    | error err =>
      rw [heval] at hc
      exact hc
    | ok b =>
      cases b
      · exact ihr
      · exact ⟨fun hcon => Except.noConfusion hcon, fun hcon => Except.noConfusion hcon⟩

theorem eval_all_no_nonbinary (cs : List Expr) (env : Env)
    (h : ∀ c ∈ cs, eval_expr c env ≠ .error .non_binary_implies ∧
      eval_expr c env ≠ .error .non_binary_equiv) :
    eval_all cs env ≠ .error .non_binary_implies ∧
      eval_all cs env ≠ .error .non_binary_equiv := by
  induction cs with
  | nil => exact ⟨fun hcon => Except.noConfusion hcon, fun hcon => Except.noConfusion hcon⟩
  | cons c rest ih =>
    have hc := h c (by simp)
    have ihr := ih (fun x hx => h x (by simp [hx]))
    have hrw : eval_all (c :: rest) env =
        (match eval_expr c env with
          | .error err => .error err
          | .ok false => .ok false
          | .ok true => eval_all rest env) := rfl
    rw [hrw]
    cases heval : eval_expr c env with
    | error err =>
      rw [heval] at hc
      exact hc
    | ok b =>
      cases b
      · exact ⟨fun hcon => Except.noConfusion hcon, fun hcon => Except.noConfusion hcon⟩
      · exact ihr

theorem eval_no_nonbinary (e : Expr) : ∀ env : Env, imp_eq_bin e = true →
    eval_expr e env ≠ .error .non_binary_implies ∧
      eval_expr e env ≠ .error .non_binary_equiv := by
  induction e using Expr.inductionOn with
  | step h v cs ih =>
    intro env hbin
    simp only [imp_eq_bin, Bool.and_eq_true] at hbin
    have h1 := imp_eq_bin_list_mem hbin.2
    have ihm : ∀ c ∈ cs, eval_expr c env ≠ .error .non_binary_implies ∧
        eval_expr c env ≠ .error .non_binary_equiv :=
      fun c hc => ih c hc env (h1 c hc)
    cases h with
    | SYMBOL =>
      have hrw : eval_expr (Expr.mk Head.SYMBOL v cs) env =
          (match List.lookup v env with
            | some b => (.ok b : Except EvalErr Bool)
            | none => .error (.unbound v)) := rfl
      rw [hrw]
      cases List.lookup v env with
      | some b =>
        exact ⟨fun hcon => Except.noConfusion hcon, fun hcon => Except.noConfusion hcon⟩
      | none =>
        constructor <;> (intro hcon; injection hcon with hcon2; exact EvalErr.noConfusion hcon2)
    | NOT =>
      cases cs with
      | nil =>
        constructor <;> (intro hcon; injection hcon with hcon2; exact EvalErr.noConfusion hcon2)
      | cons c rest =>
        have hc := ihm c (by simp)
        have hrw : eval_expr (Expr.mk Head.NOT v (c :: rest)) env =
            (match eval_expr c env with
              | .ok b => (.ok (!b) : Except EvalErr Bool)
              | .error err => .error err) := rfl
        rw [hrw]
        cases heval : eval_expr c env with
        | error err =>
          rw [heval] at hc
          exact hc
        | ok b =>
          exact ⟨fun hcon => Except.noConfusion hcon, fun hcon => Except.noConfusion hcon⟩
    | OR => exact eval_any_no_nonbinary cs env ihm
    | AND => exact eval_all_no_nonbinary cs env ihm
    | PAREN =>
      cases cs with
      | nil =>
        constructor <;> (intro hcon; injection hcon with hcon2; exact EvalErr.noConfusion hcon2)
      | cons c rest => exact ihm c (by simp)
    | IMPLIES =>
      have hlen : cs.length = 2 := by
        have hg := hbin.1
        simpa using hg
      match cs, hlen with
      | [c0, c1], _ =>
        have hc0 := ihm c0 (by simp)
        have hc1 := ihm c1 (by simp)
        have hrw : eval_expr (Expr.mk Head.IMPLIES v [c0, c1]) env =
            (match eval_expr c0 env with
              | .error err => (.error err : Except EvalErr Bool)
              | .ok b0 => if b0 then eval_expr c1 env else .ok true) := rfl
        rw [hrw]
        cases heval : eval_expr c0 env with
        | error err =>
          rw [heval] at hc0
          exact hc0
        | ok b =>
          cases b
          · exact ⟨fun hcon => Except.noConfusion hcon, fun hcon => Except.noConfusion hcon⟩
          · exact hc1
    | EQUIV =>
      have hlen : cs.length = 2 := by
        have hg := hbin.1
        simpa using hg
      match cs, hlen with
      | [c0, c1], _ =>
        have hc0 := ihm c0 (by simp)
        have hc1 := ihm c1 (by simp)
        have hrw : eval_expr (Expr.mk Head.EQUIV v [c0, c1]) env =
            (match eval_expr c0 env with
              | .error err => (.error err : Except EvalErr Bool)
              | .ok b0 =>
                match eval_expr c1 env with
                | .error err => .error err
                | .ok b1 => .ok (b0 == b1)) := rfl
        rw [hrw]
        cases heval : eval_expr c0 env with
        | error err =>
          rw [heval] at hc0
          exact hc0
        | ok b0 =>
          cases heval1 : eval_expr c1 env with
          | error err =>
            rw [heval1] at hc1
            exact hc1
          | ok b1 =>
            exact ⟨fun hcon => Except.noConfusion hcon, fun hcon => Except.noConfusion hcon⟩

/-- C9: confirmed — every successful parse yields a tree in which every
Implies and every Equiv node has exactly two children, this persists through
flatten, and consequently the defensive non-binary error branches of
eval_expr can never fire on parser output (before or after flatten), under
any environment. -/
theorem claim_C9 (ts : List Token) (e : Expr) (hp : parse ts = some e) :
    imp_eq_bin e = true ∧ imp_eq_bin (flatten e) = true ∧
    ∀ env : Env,
      eval_expr e env ≠ .error .non_binary_implies ∧
      eval_expr e env ≠ .error .non_binary_equiv ∧
      eval_expr (flatten e) env ≠ .error .non_binary_implies ∧
      eval_expr (flatten e) env ≠ .error .non_binary_equiv := by
  have hbin : imp_eq_bin e = true := by
    simp only [parse] at hp
    split at hp
    · rename_i e1 ts1 heq
      split at hp
      · rename_i pr heq2
        rw [Option.some.injEq] at hp
        subst hp
        exact (parse_all_imp_eq_bin (8 * (ts.length + 1))).1 ts e1 ts1 heq
      · exact Option.noConfusion hp
    · exact Option.noConfusion hp
  have hbinf : imp_eq_bin (flatten e) = true := imp_eq_bin_flatten e hbin
  refine ⟨hbin, hbinf, fun env => ?_⟩
  have h1 := eval_no_nonbinary e env hbin
  have h2 := eval_no_nonbinary (flatten e) env hbinf
  exact ⟨h1.1, h1.2, h2.1, h2.2⟩

/-- Witness for C9 at the parse of p -> q, evaluated under the empty
environment. -/
theorem claim_C9_witness :
    imp_eq_bin (.mk .IMPLIES "" [.mk .SYMBOL "p" [], .mk .SYMBOL "q" []]) = true ∧
    imp_eq_bin (flatten (.mk .IMPLIES "" [.mk .SYMBOL "p" [], .mk .SYMBOL "q" []])) = true ∧
    eval_expr (.mk .IMPLIES "" [.mk .SYMBOL "p" [], .mk .SYMBOL "q" []]) []
      ≠ .error .non_binary_implies := by
  have h := claim_C9 (tokenise "p -> q")
    (.mk .IMPLIES "" [.mk .SYMBOL "p" [], .mk .SYMBOL "q" []]) rfl
  exact ⟨h.1, h.2.1, (h.2.2 []).1⟩

theorem env_of_index_total (V : List String) (i : Nat) (v : String) (hv : v ∈ V) :
    ∃ b, (env_of_index V i).lookup v = some b := by
  induction V generalizing i with
  | nil => exact absurd hv (by simp)
  | cons w vs ih =>
    show ∃ b, List.lookup v ((w, decide (i < 2 ^ vs.length))
      :: env_of_index vs (i % 2 ^ vs.length)) = some b
    by_cases hw : v = w
    · subst hw
      exact ⟨decide (i < 2 ^ vs.length), by simp [List.lookup]⟩
    · have hvs : v ∈ vs := by
        rcases List.mem_cons.mp hv with h | h
        · exact absurd h hw
        · exact h
      obtain ⟨b, hb⟩ := ih (i % 2 ^ vs.length) hvs
      refine ⟨b, ?_⟩
      have hbeq : (v == w) = false := by simpa using hw
      simp only [List.lookup, hbeq]
      exact hb

theorem env_of_index_zero (V : List String) (v : String) (hv : v ∈ V) :
    (env_of_index V 0).lookup v = some true := by
  induction V with
  | nil => exact absurd hv (by simp)
  | cons w vs ih =>
    show List.lookup v ((w, decide (0 < 2 ^ vs.length))
      :: env_of_index vs (0 % 2 ^ vs.length)) = some _
    have h0 : decide (0 < 2 ^ vs.length) = true := by
      simp [Nat.pos_pow_of_pos, Nat.pos_iff_ne_zero]
    by_cases hw : v = w
    · subst hw
      simp [List.lookup, h0]
    · have hvs : v ∈ vs := by
        rcases List.mem_cons.mp hv with h | h
        · exact absurd h hw
        · exact h
      have hbeq : (v == w) = false := by simpa using hw
      simp only [List.lookup, hbeq]
      rw [Nat.zero_mod]
      exact ih hvs

theorem env_of_index_last (V : List String) (v : String) (hv : v ∈ V) :
    (env_of_index V (2 ^ V.length - 1)).lookup v = some false := by
  induction V with
  | nil => exact absurd hv (by simp)
  | cons w vs ih =>
    have hpos : 0 < 2 ^ vs.length := Nat.pos_pow_of_pos _ (by omega)
    have hsucc : 2 ^ (vs.length + 1) = 2 ^ vs.length + 2 ^ vs.length := by
      rw [pow_succ, Nat.mul_two]
    show List.lookup v ((w, decide (2 ^ (vs.length + 1) - 1 < 2 ^ vs.length))
      :: env_of_index vs ((2 ^ (vs.length + 1) - 1) % 2 ^ vs.length)) = some _
    have hlt : ¬ (2 ^ (vs.length + 1) - 1 < 2 ^ vs.length) := by omega
    have hmod : (2 ^ (vs.length + 1) - 1) % 2 ^ vs.length = 2 ^ vs.length - 1 := by
      have : 2 ^ (vs.length + 1) - 1 = 2 ^ vs.length + (2 ^ vs.length - 1) := by omega
      rw [this, Nat.add_mod_left, Nat.mod_eq_of_lt (by omega)]
    by_cases hw : v = w
    · subst hw
      simp [List.lookup, hlt]
    · have hvs : v ∈ vs := by
        rcases List.mem_cons.mp hv with h | h
        · exact absurd h hw
        · exact h
      have hbeq : (v == w) = false := by simpa using hw
      simp only [List.lookup, hbeq]
      rw [hmod]
      exact ih hvs

theorem decide_lt_pow_eq_not_testBit (i n : Nat) (hi : i < 2 ^ (n + 1)) :
    decide (i < 2 ^ n) = !(Nat.testBit i n) := by
  have hpos : 0 < 2 ^ n := Nat.pos_pow_of_pos _ (by omega)
  have hdm := Nat.div_add_mod i (2 ^ n)
  have hmlt : i % 2 ^ n < 2 ^ n := Nat.mod_lt _ hpos
  have hsucc : 2 ^ (n + 1) = 2 ^ n + 2 ^ n := by rw [pow_succ, Nat.mul_two]
  rw [Nat.testBit_to_div_mod]
  by_cases hlt : i < 2 ^ n
  · have hdiv : i / 2 ^ n = 0 := Nat.div_eq_of_lt hlt
    simp [hlt, hdiv]
  · have hge : 2 ^ n ≤ i := Nat.not_lt.mp hlt
    have hd1 : 1 ≤ i / 2 ^ n := (Nat.le_div_iff_mul_le hpos).mpr (by omega)
    have hd2 : i / 2 ^ n < 2 := (Nat.div_lt_iff_lt_mul hpos).mpr (by omega)
    have hdiv : i / 2 ^ n = 1 := by omega
    simp [hlt, hdiv]

theorem env_of_index_get (V : List String) (hnd : V.Nodup) :
    ∀ i, i < 2 ^ V.length → ∀ j, ∀ hj : j < V.length,
      (env_of_index V i).lookup (V.get ⟨j, hj⟩)
        = some (!(Nat.testBit i (V.length - 1 - j))) := by
  induction V with
  | nil => intro i hi j hj; exact absurd hj (by simp)
  | cons w vs ih =>
    intro i hi j hj
    have hnd2 := List.nodup_cons.mp hnd
    cases j with
    | zero =>
      show List.lookup w ((w, decide (i < 2 ^ vs.length))
        :: env_of_index vs (i % 2 ^ vs.length)) = some _
      simp only [List.lookup, beq_self_eq_true]
      rw [decide_lt_pow_eq_not_testBit i vs.length (by simpa using hi)]
      have hexp0 : (w :: vs).length - 1 - 0 = vs.length := by simp
      rw [hexp0]
    | succ j' =>
      have hj' : j' < vs.length := by simpa using hj
      have hget : (w :: vs).get ⟨j' + 1, hj⟩ = vs.get ⟨j', hj'⟩ := rfl
      rw [hget]
      have hne : vs.get ⟨j', hj'⟩ ≠ w := by
        intro hcon
        exact hnd2.1 (hcon ▸ List.get_mem vs j' hj')
      show List.lookup (vs.get ⟨j', hj'⟩) ((w, decide (i < 2 ^ vs.length))
        :: env_of_index vs (i % 2 ^ vs.length)) = some _
      have hbeq : (vs.get ⟨j', hj'⟩ == w) = false := by simpa using hne
      simp only [List.lookup, hbeq]
      have hmlt : i % 2 ^ vs.length < 2 ^ vs.length :=
        Nat.mod_lt _ (Nat.pos_pow_of_pos _ (by omega))
      rw [ih hnd2.2 (i % 2 ^ vs.length) hmlt j' hj']
      have hexp : vs.length - 1 - j' < vs.length := by omega
      rw [Nat.testBit_mod_two_pow]
      have hand : (decide (vs.length - 1 - j' < vs.length)
          && i.testBit (vs.length - 1 - j')) = i.testBit (vs.length - 1 - j') := by
        simp [hexp]
      rw [hand]
      have hlen2 : (w :: vs).length - 1 - (j' + 1) = vs.length - 1 - j' := by
        simp only [List.length_cons]
        omega
      rw [hlen2]

theorem table_envs_eq (V : List String) :
    table_envs V = (List.range (2 ^ V.length)).map (env_of_index V) := by
  show V.reverse.foldl py_step [[]] = _
  rw [List.foldl_reverse]
  induction V with
  | nil =>
    show [[]] = (List.range (2 ^ 0)).map (env_of_index [])
    rfl
  | cons v vs ih =>
    rw [List.foldr_cons, ih]
    show py_step ((List.range (2 ^ vs.length)).map (env_of_index vs)) v = _
    have hpow : 2 ^ (v :: vs).length = 2 ^ vs.length + 2 ^ vs.length := by
      rw [List.length_cons, pow_succ, Nat.mul_two]
    rw [hpow, List.range_add, List.map_append]
    simp only [py_step, List.map_map]
    congr 1
    · refine List.map_congr_left ?_
      intro i hi
      have hilt : i < 2 ^ vs.length := List.mem_range.mp hi
      show (v, true) :: env_of_index vs i = env_of_index (v :: vs) i
      show _ = (v, decide (i < 2 ^ vs.length)) :: env_of_index vs (i % 2 ^ vs.length)
      rw [Nat.mod_eq_of_lt hilt]
      simp [hilt]
    · refine List.map_congr_left ?_
      intro i hi
      have hilt : i < 2 ^ vs.length := List.mem_range.mp hi
      show (v, false) :: env_of_index vs i = env_of_index (v :: vs) (2 ^ vs.length + i)
      show _ = (v, decide (2 ^ vs.length + i < 2 ^ vs.length))
        :: env_of_index vs ((2 ^ vs.length + i) % 2 ^ vs.length)
      have hge : ¬ (2 ^ vs.length + i < 2 ^ vs.length) := by omega
      rw [Nat.add_mod_left, Nat.mod_eq_of_lt hilt]
      simp [hge]

/-- C5: confirmed — the env-building loop of make_table produces exactly
2^N environments; the i-th environment (0-based) assigns variable j of V
the value "bit N-1-j of i is zero", so the first variable toggles slowest,
the last toggles fastest, each split block lists the 1-half before the
0-half, the first row is all-true and the last all-false; every environment
is total over V. -/
theorem claim_C5 (V : List String) (hnd : V.Nodup) :
    (table_envs V).length = 2 ^ V.length ∧
    table_envs V = (List.range (2 ^ V.length)).map (env_of_index V) ∧
    (∀ env ∈ table_envs V, ∀ v ∈ V, ∃ b, env.lookup v = some b) ∧
    (∀ v ∈ V, (env_of_index V 0).lookup v = some true) ∧
    (∀ v ∈ V, (env_of_index V (2 ^ V.length - 1)).lookup v = some false) ∧
    (∀ i, i < 2 ^ V.length → ∀ j, ∀ hj : j < V.length,
      (env_of_index V i).lookup (V.get ⟨j, hj⟩)
        = some (!(Nat.testBit i (V.length - 1 - j)))) := by
  refine ⟨?_, table_envs_eq V, ?_, env_of_index_zero V, env_of_index_last V,
    env_of_index_get V hnd⟩
  · rw [table_envs_eq V, List.length_map, List.length_range]
  · intro env henv v hv
    rw [table_envs_eq V] at henv
    obtain ⟨i, _, rfl⟩ := List.mem_map.mp henv
    exact env_of_index_total V i v hv

/-- Witness for C5 at V = [p, q]. -/
theorem claim_C5_witness :
    (["p", "q"] : List String).Nodup ∧
    (table_envs ["p", "q"]).length = 2 ^ 2 ∧
    (env_of_index ["p", "q"] 0).lookup "p" = some true := by
  have h := claim_C5 ["p", "q"] (by decide)
  exact ⟨by decide, h.1, h.2.2.2.1 "p" (by simp)⟩

mutual

/-- All strict descendants of a node (each child together with its own
descendants). -/
def proper_subtrees : Expr → List Expr
  | .mk _ _ cs => subtrees_list cs

def subtrees_list : List Expr → List Expr
  | [] => []
  | c :: cs => (c :: proper_subtrees c) ++ subtrees_list cs

end

/-- A node qualifies for collection iff its head is neither Paren nor
Symbol. -/
def Qual (e : Expr) : Prop :=
  e.head ≠ Head.PAREN ∧ e.head ≠ Head.SYMBOL

theorem subtrees_list_mem {d : Expr} {cs : List Expr} :
    d ∈ subtrees_list cs ↔ ∃ c ∈ cs, d = c ∨ d ∈ proper_subtrees c := by
  induction cs with
  | nil => simp [subtrees_list]
  | cons c rest ih =>
    simp only [subtrees_list, List.mem_append, List.mem_cons, ih]
    constructor
    · rintro ((heq | hd) | ⟨c0, hc0, hd⟩)
      · exact ⟨c, Or.inl rfl, Or.inl heq⟩
      · exact ⟨c, Or.inl rfl, Or.inr hd⟩
      · exact ⟨c0, Or.inr hc0, hd⟩
    · rintro ⟨c0, (heq | hc0), hd⟩
      · exact Or.inl (heq ▸ hd)
      · exact Or.inr ⟨c0, hc0, hd⟩

theorem postorder_children_mem {d c0 : Expr} {cs : List Expr} (hc0 : c0 ∈ cs)
    (hd : d ∈ postorder c0) : d ∈ postorder_children cs := by
  induction cs with
  | nil => exact absurd hc0 (by simp)
  | cons c rest ih =>
    simp only [postorder_children, List.mem_append]
    rcases List.mem_cons.mp hc0 with rfl | hc0
    · exact Or.inl hd
    · exact Or.inr (ih hc0)

theorem mem_postorder_of_subtree (c d : Expr) (hq : Qual d) :
    d = c ∨ d ∈ proper_subtrees c → d ∈ postorder c := by
  induction c using Expr.inductionOn with
  | step h v cs ih =>
    intro hd
    rcases hd with heq | hd
    · subst heq
      show Expr.mk h v cs ∈ postorder_children cs ++
        (if h = Head.PAREN ∨ h = Head.SYMBOL then [] else [Expr.mk h v cs])
      have hcond : ¬ (h = Head.PAREN ∨ h = Head.SYMBOL) := by
        rintro (hcon | hcon)
        · exact hq.1 hcon
        · exact hq.2 hcon
      rw [if_neg hcond]
      simp
    · have hd2 : d ∈ subtrees_list cs := hd
      obtain ⟨c0, hc0, hdc0⟩ := subtrees_list_mem.mp hd2
      have : d ∈ postorder c0 := ih c0 hc0 hdc0
      show d ∈ postorder_children cs ++ _
      exact List.mem_append.mpr (Or.inl (postorder_children_mem hc0 this))

theorem postorder_children_qual {x : Expr} {cs : List Expr}
    (hmem : ∀ c ∈ cs, ∀ y ∈ postorder c, Qual y) (hx : x ∈ postorder_children cs) :
    Qual x := by
  induction cs with
  | nil => simp [postorder_children] at hx
  | cons c rest ih =>
    simp only [postorder_children, List.mem_append] at hx
    rcases hx with hx | hx
    · exact hmem c (by simp) x hx
    · exact ih (fun c0 hc0 => hmem c0 (by simp [hc0])) hx

theorem postorder_qual (e : Expr) : ∀ x ∈ postorder e, Qual x := by
  induction e using Expr.inductionOn with
  | step h v cs ih =>
    intro x hx
    by_cases hcond : h = Head.PAREN ∨ h = Head.SYMBOL
    · have : postorder (Expr.mk h v cs) = postorder_children cs ++ [] := by
        show (postorder_children cs ++ if _ then _ else _) = _
        rw [if_pos hcond]
      rw [this, List.append_nil] at hx
      exact postorder_children_qual (fun c hc => ih c hc) hx
    · have : postorder (Expr.mk h v cs)
          = postorder_children cs ++ [Expr.mk h v cs] := by
        show (postorder_children cs ++ if _ then _ else _) = _
        rw [if_neg hcond]
      rw [this, List.mem_append] at hx
      rcases hx with hx | hx
      · exact postorder_children_qual (fun c hc => ih c hc) hx
      · have hxe : x = Expr.mk h v cs := by simpa using hx
        subst hxe
        rw [not_or] at hcond
        exact ⟨hcond.1, hcond.2⟩

theorem postorder_children_before (cs : List Expr)
    (hmem : ∀ c ∈ cs, ∀ a x b, postorder c = a ++ x :: b →
      ∀ d, Qual d → d ∈ proper_subtrees x → d ∈ a) :
    ∀ a x b, postorder_children cs = a ++ x :: b →
      ∀ d, Qual d → d ∈ proper_subtrees x → d ∈ a := by
  induction cs with
  | nil =>
    intro a x b hdec
    exact absurd hdec (by simp [postorder_children])
  | cons c rest ih =>
    intro a x b hdec d hq hdp
    have hdec2 : postorder c ++ postorder_children rest = a ++ x :: b := hdec
    rcases List.append_eq_append_iff.mp hdec2 with ⟨a', ha, hrest⟩ | ⟨c', hpc, hxb⟩
    · have hda' : d ∈ a' :=
        ih (fun c0 hc0 => hmem c0 (by simp [hc0])) a' x b hrest d hq hdp
      rw [ha]
      exact List.mem_append.mpr (Or.inr hda')
    · cases c' with
      | nil =>
        rw [List.nil_append] at hxb
        have hda : d ∈ ([] : List Expr) :=
          ih (fun c0 hc0 => hmem c0 (by simp [hc0])) [] x b hxb.symm d hq hdp
        exact absurd hda (by simp)
      | cons x' c'' =>
        rw [List.cons_append] at hxb
        injection hxb with h1 h2
        rw [← h1] at hpc
        exact hmem c (by simp) a x c'' hpc d hq hdp

theorem postorder_before (e : Expr) :
    ∀ a x b, postorder e = a ++ x :: b → ∀ d, Qual d → d ∈ proper_subtrees x → d ∈ a := by
  induction e using Expr.inductionOn with
  | step h v cs ih =>
    intro a x b hdec d hq hdp
    have hdec2 : postorder_children cs ++
        (if h = Head.PAREN ∨ h = Head.SYMBOL then [] else [Expr.mk h v cs])
        = a ++ x :: b := hdec
    rcases List.append_eq_append_iff.mp hdec2 with ⟨a', ha, hta⟩ | ⟨c', hpc, htb⟩
    · by_cases hcond : h = Head.PAREN ∨ h = Head.SYMBOL
      · rw [if_pos hcond] at hta
        exact absurd hta.symm (by simp)
      · rw [if_neg hcond] at hta
        cases a' with
        | cons y ys =>
          rw [List.cons_append] at hta
          injection hta with h1 h2
          exact absurd h2.symm (by simp)
        | nil =>
          rw [List.nil_append] at hta
          injection hta with h1 h2
          subst h1
          subst h2
          rw [ha, List.append_nil]
          obtain ⟨c0, hc0, hdc0⟩ := subtrees_list_mem.mp hdp
          exact postorder_children_mem hc0 (mem_postorder_of_subtree c0 d hq hdc0)
    · cases c' with
      | nil =>
        by_cases hcond : h = Head.PAREN ∨ h = Head.SYMBOL
        · rw [if_pos hcond] at htb
          exact absurd htb (by simp)
        · rw [if_neg hcond] at htb
          rw [List.nil_append] at htb
          injection htb with h1 h2
          subst h1
          subst h2
          rw [List.append_nil] at hpc
          rw [← hpc]
          obtain ⟨c0, hc0, hdc0⟩ := subtrees_list_mem.mp hdp
          exact postorder_children_mem hc0 (mem_postorder_of_subtree c0 d hq hdc0)
      | cons x' c'' =>
        rw [List.cons_append] at htb
        injection htb with h1 h2
        rw [← h1] at hpc
        exact postorder_children_before cs (fun c hc => ih c hc) a x c'' hpc d hq hdp

theorem collect_loop_subset : ∀ stream seen, ∀ x ∈ collect_loop stream seen, x ∈ stream := by
  intro stream
  induction stream with
  | nil => intro seen x hx; exact absurd hx (by simp [collect_loop])
  | cons y ys ih =>
    intro seen x hx
    by_cases hseen : pretty y ∈ seen
    · rw [show collect_loop (y :: ys) seen = collect_loop ys seen from by
        simp [collect_loop, hseen]] at hx
      exact List.mem_cons.mpr (Or.inr (ih seen x hx))
    · rw [show collect_loop (y :: ys) seen = y :: collect_loop ys (pretty y :: seen) from by
        simp [collect_loop, hseen]] at hx
      rcases List.mem_cons.mp hx with rfl | hx
      · exact List.mem_cons.mpr (Or.inl rfl)
      · exact List.mem_cons.mpr (Or.inr (ih _ x hx))

theorem collect_loop_nodup : ∀ stream seen,
    (List.map pretty (collect_loop stream seen)).Nodup ∧
      ∀ x ∈ collect_loop stream seen, pretty x ∉ seen := by
  intro stream
  induction stream with
  | nil => intro seen; exact ⟨by simp [collect_loop], by simp [collect_loop]⟩
  | cons y ys ih =>
    intro seen
    by_cases hseen : pretty y ∈ seen
    · rw [show collect_loop (y :: ys) seen = collect_loop ys seen from by
        simp [collect_loop, hseen]]
      exact ih seen
    · rw [show collect_loop (y :: ys) seen = y :: collect_loop ys (pretty y :: seen) from by
        simp [collect_loop, hseen]]
      obtain ⟨hnd, hnotin⟩ := ih (pretty y :: seen)
      constructor
      · rw [List.map_cons, List.nodup_cons]
        refine ⟨?_, hnd⟩
        intro hcon
        obtain ⟨z, hz, hpz⟩ := List.mem_map.mp hcon
        exact hnotin z hz (by rw [hpz]; exact List.mem_cons_self _ _)
      · intro x hx
        rcases List.mem_cons.mp hx with rfl | hx
        · exact hseen
        · intro hcon
          exact hnotin x hx (List.mem_cons.mpr (Or.inr hcon))

theorem collect_loop_order : ∀ stream seen,
    (∀ a x b, stream = a ++ x :: b → ∀ d, Qual d → d ∈ proper_subtrees x →
      pretty d ∈ seen ∨ d ∈ a) →
    ∀ i x, (collect_loop stream seen).get? i = some x → ∀ d, Qual d →
      d ∈ proper_subtrees x →
      pretty d ∈ seen ∨ pretty d ∈ ((collect_loop stream seen).take i).map pretty := by
  intro stream
  induction stream with
  | nil =>
    intro seen hstream i x hget
    rw [show collect_loop [] seen = [] from rfl] at hget
    exact absurd hget (by simp)
  | cons y ys ih =>
    intro seen hstream i x hget d hq hdp
    by_cases hseen : pretty y ∈ seen
    · have hcl : collect_loop (y :: ys) seen = collect_loop ys seen := by
        simp [collect_loop, hseen]
      have hstream2 : ∀ a x2 b, ys = a ++ x2 :: b → ∀ d2, Qual d2 →
          d2 ∈ proper_subtrees x2 → pretty d2 ∈ seen ∨ d2 ∈ a := by
        intro a x2 b hdec d2 hq2 hdp2
        rcases hstream (y :: a) x2 b (by rw [hdec]; rfl) d2 hq2 hdp2 with hin | hin
        · exact Or.inl hin
        · rcases List.mem_cons.mp hin with rfl | hin
          · exact Or.inl hseen
          · exact Or.inr hin
      rw [hcl] at hget ⊢
      exact ih seen hstream2 i x hget d hq hdp
    · have hcl : collect_loop (y :: ys) seen = y :: collect_loop ys (pretty y :: seen) := by
        simp [collect_loop, hseen]
      rw [hcl] at hget ⊢
      have hstream2 : ∀ a x2 b, ys = a ++ x2 :: b → ∀ d2, Qual d2 →
          d2 ∈ proper_subtrees x2 → pretty d2 ∈ pretty y :: seen ∨ d2 ∈ a := by
        intro a x2 b hdec d2 hq2 hdp2
        rcases hstream (y :: a) x2 b (by rw [hdec]; rfl) d2 hq2 hdp2 with hin | hin
        · exact Or.inl (List.mem_cons.mpr (Or.inr hin))
        · rcases List.mem_cons.mp hin with rfl | hin
          · exact Or.inl (List.mem_cons.mpr (Or.inl rfl))
          · exact Or.inr hin
      cases i with
      | zero =>
        have hx : x = y := by
          have : some y = some x := hget
          exact (Option.some.inj this).symm
        subst hx
        rcases hstream [] x ys rfl d hq hdp with hin | hin
        · exact Or.inl hin
        · exact absurd hin (by simp)
      | succ j =>
        have hget2 : (collect_loop ys (pretty y :: seen)).get? j = some x := hget
        rcases ih (pretty y :: seen) hstream2 j x hget2 d hq hdp with hin | hin
        · rcases List.mem_cons.mp hin with heq | hin
          · refine Or.inr ?_
            rw [List.take_succ_cons, List.map_cons]
            exact List.mem_cons.mpr (Or.inl heq)
          · exact Or.inl hin
        · refine Or.inr ?_
          rw [List.take_succ_cons, List.map_cons]
          exact List.mem_cons.mpr (Or.inr hin)

/-- C6: confirmed — the collected subexpression sequence (the deduplicated
post-order part that subexpressions appends after the variable columns)
contains no Symbol and no Paren node, contains no two entries with the same
rendered text, and every qualifying strict descendant of an entry has its
rendered text at an earlier position of the sequence. -/
theorem claim_C6 (e : Expr) :
    (∀ x ∈ collected e, x.head ≠ Head.PAREN ∧ x.head ≠ Head.SYMBOL) ∧
    (List.map pretty (collected e)).Nodup ∧
    (∀ i x, (collected e).get? i = some x → ∀ d,
      d.head ≠ Head.PAREN → d.head ≠ Head.SYMBOL →
      d ∈ proper_subtrees x →
      pretty d ∈ ((collected e).take i).map pretty) := by
  refine ⟨?_, (collect_loop_nodup (postorder e) []).1, ?_⟩
  · intro x hx
    exact postorder_qual e x (collect_loop_subset (postorder e) [] x hx)
  · intro i x hget d hd1 hd2 hdp
    have hstream : ∀ a x2 b, postorder e = a ++ x2 :: b → ∀ d2, Qual d2 →
        d2 ∈ proper_subtrees x2 → pretty d2 ∈ ([] : List (Option String)) ∨ d2 ∈ a :=
      fun a x2 b hdec d2 hq2 hdp2 => Or.inr (postorder_before e a x2 b hdec d2 hq2 hdp2)
    rcases collect_loop_order (postorder e) [] hstream i x hget d ⟨hd1, hd2⟩ hdp with hin | hin
    · exact absurd hin (by simp)
    · exact hin

/-- Witness for C6: for Not(And(p,q)) (the flattened parse of !(p ^ q)
without the Paren), the And node is a qualifying strict descendant of the
entry at position 1 and its rendered text appears at the earlier position
0. -/
theorem claim_C6_witness :
    pretty (.mk .AND "" [.mk .SYMBOL "p" [], .mk .SYMBOL "q" []]) ∈
      (((collected (.mk .NOT "" [.mk .AND "" [.mk .SYMBOL "p" [],
        .mk .SYMBOL "q" []]])).take 1).map pretty) := by
  refine (claim_C6 (.mk .NOT "" [.mk .AND "" [.mk .SYMBOL "p" [],
    .mk .SYMBOL "q" []]])).2.2 1 (.mk .NOT "" [.mk .AND "" [.mk .SYMBOL "p" [],
    .mk .SYMBOL "q" []]]) rfl _ (by decide) (by decide) ?_
  show _ ∈ (Expr.mk .AND "" [.mk .SYMBOL "p" [], .mk .SYMBOL "q" []]
    :: Expr.mk .SYMBOL "p" [] :: Expr.mk .SYMBOL "q" [] :: [])
  exact List.mem_cons_self _ _

theorem scanF_symbol (fuel : Nat) (c : Char) (rest : List Char)
    (hc : isSymbolChar c = true) :
    scanF (fuel + 1) (c :: rest)
      = ⟨.SYMBOL, String.mk (c :: rest.takeWhile isSymbolChar)⟩
        :: scanF fuel (rest.dropWhile isSymbolChar) := by
  have h1 : ¬ c = '!' := fun hcon => by rw [hcon] at hc; exact absurd hc (by decide)
  have h2 : ¬ c = 'v' := fun hcon => by rw [hcon] at hc; exact absurd hc (by decide)
  have h3 : ¬ c = '^' := fun hcon => by rw [hcon] at hc; exact absurd hc (by decide)
  have h4 : ¬ c = '-' := fun hcon => by rw [hcon] at hc; exact absurd hc (by decide)
  have h5 : ¬ c = '<' := fun hcon => by rw [hcon] at hc; exact absurd hc (by decide)
  have h6 : ¬ c = '(' := fun hcon => by rw [hcon] at hc; exact absurd hc (by decide)
  have h7 : ¬ c = ')' := fun hcon => by rw [hcon] at hc; exact absurd hc (by decide)
  simp only [scanF]
  rw [if_neg h1, if_neg h2, if_neg h3, if_neg h4, if_neg h5, if_neg h6, if_neg h7,
    if_pos hc]

theorem tokenise_all_symbol (s : String) (h1 : s.data ≠ [])
    (h2 : s.data.all isSymbolChar = true) :
    tokenise s = [⟨.SYMBOL, s⟩, ⟨.EOF, ""⟩] := by
  cases hs : s.data with
  | nil => exact absurd hs h1
  | cons c rest =>
    have hall : isSymbolChar c = true ∧ rest.all isSymbolChar = true := by
      rw [hs] at h2
      simpa using h2
    have hlen : s.length = rest.length + 1 := by
      rw [show s.length = s.data.length from rfl, hs]
      rfl
    show scanF (s.length + 1) s.data = _
    rw [hlen, hs]
    rw [scanF_symbol (rest.length + 1) c rest hall.1]
    have htake : rest.takeWhile isSymbolChar = rest := by
      rw [List.takeWhile_eq_self_iff]
      intro a ha
      exact (List.all_eq_true.mp hall.2) a ha
    have hdrop : rest.dropWhile isSymbolChar = [] := by
      rw [List.dropWhile_eq_nil_iff]
      intro a ha
      exact (List.all_eq_true.mp hall.2) a ha
    rw [htake, hdrop]
    have hmk : String.mk (c :: rest) = s := by
      rw [← hs]
    rw [hmk]
    rfl

/-- C3: the claim is false: pretty prints LaTeX command words, which the
tokeniser reads back as ordinary symbols.  For the valid input !p the
pretty output is the two-symbol string \neg p, whose re-parse fails with a
trailing-token error rather than reproducing the formula. -/
theorem claim_C3_counterexample :
    parse (tokenise "!p") = some (.mk .NOT "" [.mk .SYMBOL "p" []]) ∧
    pretty (.mk .NOT "" [.mk .SYMBOL "p" []]) = some "\\neg p" ∧
    parse (tokenise "\\neg p") = none := by
  exact ⟨rfl, rfl, rfl⟩

/-- C3 (amended): the round trip survives only connective-free formulas.
For every input that is one bare variable name (a nonempty string of symbol
characters), parse succeeds, pretty returns the name itself, and re-parsing
the pretty output returns the identical Expr — hence the same truth value
under every assignment; as soon as a connective is printed the re-parse
fails (see the counterexample). -/
theorem claim_C3_amended (s : String) (h1 : s.data ≠ [])
    (h2 : s.data.all isSymbolChar = true) :
    ∃ e out, parse (tokenise s) = some e ∧ pretty e = some out ∧
      parse (tokenise out) = some e := by
  refine ⟨.mk .SYMBOL s [], s, ?_, ?_, ?_⟩
  · rw [tokenise_all_symbol s h1 h2]
    rfl
  · show some (String.intercalate " " [s]) = some s
    rfl
  · rw [tokenise_all_symbol s h1 h2]
    rfl

/-- Witness for C3 (amended) at the input p. -/
theorem claim_C3_amended_witness :
    ("p" : String).data ≠ [] ∧ ("p" : String).data.all isSymbolChar = true ∧
    ∃ e out, parse (tokenise "p") = some e ∧ pretty e = some out ∧
      parse (tokenise out) = some e := by
  exact ⟨by decide, by decide, claim_C3_amended "p" (by decide) (by decide)⟩
